import Mathlib

/-!
# Verification of the adaptive query-rewriting and retrieval-fusion engine

Shallow embedding of the core logic of `src/query_rewriter.py` and
`src/vector_store.py` (darkanita/rag-query-rewrite-poc).

Modelling conventions:
* Python strings are Lean `String`s.  The Python string primitives used by the
  code (`lower`, `strip`, `split`, `in`, `count`, `len`) are re-implemented
  below by structural recursion over the character list, so that every
  definition evaluates by kernel reduction.
* Relevance scores and similarity values (Python floats) are modelled as `Rat`;
  the embedded logic only compares them, it never performs float arithmetic
  whose rounding could be observed.
* The external completion service is an oracle `Nat → Except String String`
  indexed by the sequential call number (the code issues its calls strictly one
  at a time); `.error e` models a raised exception with message `e`.
* The external embedding service is abstracted at the level of the cosine
  similarities its vectors induce: an oracle `Option (Nat → Nat → Rat)` giving
  the pairwise similarity of the i-th and j-th embedded string (`none` models a
  raised exception, which `_calculate_semantic_similarity` absorbs).
* The md5 digest in `_get_cache_key` is abstracted as its pre-image string
  (the code only ever compares digests for equality).
* Raised Python exceptions are modelled with `Except String`.
-/

deriving instance DecidableEq for Except

namespace RagPoc

/-! ## Python string primitives -/

/-- Python `s.lower()` (ASCII case folding, which is all the embedded logic
inspects). -/
def pyLower (s : String) : String := String.mk (s.data.map Char.toLower)

/-- Python `s.strip()`: drop leading and trailing whitespace. -/
def pyStrip (s : String) : String :=
  String.mk (((s.data.dropWhile Char.isWhitespace).reverse.dropWhile
    Char.isWhitespace).reverse)

/-- Python `s.strip(c)` for a one-character set: drop leading and trailing
occurrences of `c`. -/
def pyStripChar (c : Char) (s : String) : String :=
  String.mk (((s.data.dropWhile (· == c)).reverse.dropWhile (· == c)).reverse)

/-- Python `s.split()`: split on whitespace runs, dropping empty tokens. -/
def pySplit (s : String) : List String :=
  ((s.data.splitOnP Char.isWhitespace).filter (fun w => !w.isEmpty)).map String.mk

/-- Python `s.split(c)` for a one-character separator: empty fields are kept. -/
def pySplitChar (c : Char) (s : String) : List String :=
  (s.data.splitOn c).map String.mk

/-- Python `s.count(c)` for a single character. -/
def pyCount (c : Char) (s : String) : Nat := s.data.count c

/-- Python `needle in haystack` substring test. -/
def pyContains (needle haystack : String) : Bool :=
  decide (needle.data <:+: haystack.data)

/-! ## `_determine_query_complexity` (src/query_rewriter.py:127-145) -/

/-- `QueryRewriter._determine_query_complexity`: classify a query as
`"simple"`, `"medium"` or `"complex"`.  (The source also computes an unused
`has_conditionals` flag; it does not influence the branching and is omitted.) -/
def determineQueryComplexity (query : String) : String :=
  let wordCount := (pySplit query).length
  let lower := pyLower query
  let hasMultipleQuestions :=
    pyCount '?' query > 1 || pyContains " y " lower || pyContains " o " lower
  let hasComparisons :=
    ["comparar", "diferencia", "versus", "vs", "mejor"].any
      (fun w => pyContains w lower)
  if wordCount ≤ 5 && !hasMultipleQuestions then "simple"
  else if wordCount > 15 || hasMultipleQuestions || hasComparisons then "complex"
  else "medium"

/-- `QueryRewriter._adjust_max_queries` (src/query_rewriter.py:147-158). -/
def adjustMaxQueries (maxQueries : Nat) (query : String) : Nat :=
  let complexity := determineQueryComplexity query
  if complexity = "simple" then min 2 maxQueries
  else if complexity = "complex" then min 5 (max 3 maxQueries)
  else maxQueries

/-! ## `_deduplicate_queries` (src/query_rewriter.py:85-125) -/

/-- First-occurrence deduplication by a key function, threading the set of
already-seen keys (modelled as a list).  Both the exact-duplicate pass of
`_deduplicate_queries` and the content-deduplication loop of
`VectorStore.search_multiple` are loops of exactly this shape. -/
def dedupByKey (key : α → String) (seen : List String) : List α → List α
  | [] => []
  | x :: rest =>
    if seen.contains (key x) then dedupByKey key seen rest
    else x :: dedupByKey key (key x :: seen) rest

/-- Case-insensitive exact-duplicate key: Python `q.lower().strip()`. -/
def exactKey (q : String) : String := pyStrip (pyLower q)

/-- The exact-duplicate removal pass of `_deduplicate_queries`
(src/query_rewriter.py:93-100): first occurrence wins, comparison is on the
lower-cased stripped string, the original string is kept. -/
def dedupExact (queries : List String) : List String :=
  dedupByKey exactKey [] queries

/-- The `0.95` cosine-similarity threshold of
`_calculate_semantic_similarity` (src/query_rewriter.py:77). -/
def simThreshold : Rat := mkRat 95 100

/-- `QueryRewriter._calculate_semantic_similarity`
(src/query_rewriter.py:49-83): the double loop over `i < j` collecting the
pairs whose cosine similarity exceeds `0.95`.  The oracle `simOracle` gives the
similarities induced by the embedding service; `none` models a raised
exception, which the function absorbs by returning `[]`. -/
def calculateSemanticSimilarity (simOracle : Option (Nat → Nat → Rat))
    (queries : List String) : List (Nat × Nat × Rat) :=
  if queries.length ≤ 1 then []
  else
    match simOracle with
    | none => []
    | some sim =>
      ((List.range queries.length).map (fun i =>
        (((List.range queries.length).filter (fun j => decide (i < j))).filterMap
          (fun j =>
            if sim i j > simThreshold then some (i, j, sim i j) else none)))).flatten

/-- The removal loop of `_deduplicate_queries` (src/query_rewriter.py:112-118):
for a similar pair `(i, j)` (with `i < j`) the longer string is marked for
removal; on a length tie `j` (the second-indexed member) is marked. -/
def pairLoser (uniqueQueries : List String) (p : Nat × Nat × Rat) : Nat :=
  if (uniqueQueries.getD p.1 "").length > (uniqueQueries.getD p.2.1 "").length
  then p.1 else p.2.1

/-- The final comprehension of `_deduplicate_queries`
(src/query_rewriter.py:120): keep the entries whose index is not marked. -/
def removeIdx (toRemove : List Nat) : Nat → List String → List String
  | _, [] => []
  | k, q :: rest =>
    if toRemove.contains k then removeIdx toRemove (k + 1) rest
    else q :: removeIdx toRemove (k + 1) rest

/-- `QueryRewriter._deduplicate_queries` (src/query_rewriter.py:85-125). -/
def deduplicateQueries (simOracle : Option (Nat → Nat → Rat))
    (queries : List String) : List String :=
  if queries.length ≤ 1 then queries
  else
    let uniqueQueries := dedupExact queries
    if uniqueQueries.length ≤ 1 then uniqueQueries
    else
      let similarPairs := calculateSemanticSimilarity simOracle uniqueQueries
      if similarPairs = [] then uniqueQueries
      else
        let toRemove := similarPairs.map (pairLoser uniqueQueries)
        removeIdx toRemove 0 uniqueQueries

/-! ## The rewriter data model -/

/-- A metadata value (the Python metadata dicts hold bools, ints, floats,
strings and lists of strings). -/
inductive MetaVal where
  | b (v : Bool)
  | n (v : Nat)
  | q (v : Rat)
  | s (v : String)
  | ls (v : List String)
deriving DecidableEq, Repr

/-- The result dictionary produced by the strategy methods and by `rewrite`.
`metadata := none` models a dict without a `"metadata"` key (the error-path
dicts of the three strategy methods omit it). -/
structure RewriteResult where
  original : String
  rewritten : List String
  strategy : String
  metadata : Option (List (String × MetaVal))
  error : Option String
deriving DecidableEq, Repr

/-- The external services: `completion n` is the outcome of the `n`-th
chat-completion call and `sim n` the similarity table delivered by the `n`-th
embedding call (`none` = the call raised). -/
structure Env where
  completion : Nat → Except String String
  sim : Nat → Option (Nat → Nat → Rat)

/-- The mutable fields of a `QueryRewriter` other than the cache:
`self.max_queries` plus the two counters that sequence the external calls. -/
structure GenState where
  maxQueries : Nat
  callCount : Nat
  simCount : Nat
deriving DecidableEq, Repr

inductive RewriteStrategy where
  | expansion
  | decomposition
  | refinement
  | hybrid
deriving DecidableEq, Repr

def RewriteStrategy.value : RewriteStrategy → String
  | .expansion => "expansion"
  | .decomposition => "decomposition"
  | .refinement => "refinement"
  | .hybrid => "hybrid"

/-! ## The strategy methods (src/query_rewriter.py:219-426) -/

/-- Post-processing of the completion output, duplicated verbatim in
`_expand_query` (src/query_rewriter.py:266-267) and `_decompose_query`
(src/query_rewriter.py:337-338): split by line, strip each line, keep the
non-empty lines longer than 10 characters. -/
def processLines (content : String) : List String :=
  ((pySplitChar '\n' (pyStrip content)).map pyStrip).filter
    (fun q => !q.isEmpty && q.length > 10)

/-- `QueryRewriter._expand_query` (src/query_rewriter.py:219-285). -/
def expandQuery (env : Env) (gs : GenState) (query : String) :
    RewriteResult × GenState :=
  let call := env.completion gs.callCount
  let gs := { gs with callCount := gs.callCount + 1 }
  match call with
  | .error e =>
    ({ original := query, rewritten := [query], strategy := "expansion",
       metadata := none, error := some e }, gs)
  | .ok content =>
    let expandedQueries := (processLines content).take gs.maxQueries
    ({ original := query, rewritten := query :: expandedQueries,
       strategy := "expansion",
       metadata := some [("num_variations", MetaVal.n expandedQueries.length),
                         ("temperature", MetaVal.q (mkRat 2 5))],
       error := none }, gs)

/-- `QueryRewriter._decompose_query` (src/query_rewriter.py:287-357).
Note that its error-path dict has no `"metadata"` key. -/
def decomposeQuery (env : Env) (gs : GenState) (query : String) :
    RewriteResult × GenState :=
  let call := env.completion gs.callCount
  let gs := { gs with callCount := gs.callCount + 1 }
  match call with
  | .error e =>
    ({ original := query, rewritten := [query], strategy := "decomposition",
       metadata := none, error := some e }, gs)
  | .ok content =>
    let subQueries := (processLines content).take gs.maxQueries
    ({ original := query,
       rewritten := if subQueries.length > 1 then subQueries else [query],
       strategy := "decomposition",
       metadata := some [("num_sub_queries", MetaVal.n subQueries.length),
                         ("was_decomposed", MetaVal.b (decide (subQueries.length > 1))),
                         ("temperature", MetaVal.q (mkRat 2 5))],
       error := none }, gs)

/-- `QueryRewriter._refine_query` (src/query_rewriter.py:359-426).  The output
is stripped of whitespace, then of double quotes (`Char.ofNat 34`), then of
single quotes (`Char.ofNat 39`). -/
def refineQuery (env : Env) (gs : GenState) (query : String) :
    RewriteResult × GenState :=
  let call := env.completion gs.callCount
  let gs := { gs with callCount := gs.callCount + 1 }
  match call with
  | .error e =>
    ({ original := query, rewritten := [query], strategy := "refinement",
       metadata := none, error := some e }, gs)
  | .ok content =>
    let refinedQuery := pyStripChar (Char.ofNat 39)
      (pyStripChar (Char.ofNat 34) (pyStrip content))
    ({ original := query,
       rewritten := if !refinedQuery.isEmpty && refinedQuery != query
         then [refinedQuery] else [query],
       strategy := "refinement",
       metadata := some [("refined", MetaVal.b (refinedQuery != query)),
                         ("temperature", MetaVal.q (mkRat 1 5))],
       error := none }, gs)

/-! ## `_hybrid_rewrite` (src/query_rewriter.py:428-526) -/

/-- Python truthiness of `metadata.get("was_decomposed")`: a missing key
(`None`) is falsy. -/
def metaTruthy : Option MetaVal → Bool
  | some (.b v) => v
  | some (.n v) => v != 0
  | some (.q v) => v != 0
  | some (.s v) => !v.isEmpty
  | some (.ls v) => !v.isEmpty
  | none => false

/-- The final dedup-and-cap loop of `_hybrid_rewrite`
(src/query_rewriter.py:504-513): keep stripped entries longer than 10
characters, drop case-insensitive duplicates, stop as soon as `maxQueries`
entries have been collected.  `acc` holds the collected entries in reverse. -/
def hybridCapLoop (maxQueries : Nat) (seen acc : List String) :
    List String → List String
  | [] => acc.reverse
  | q :: rest =>
    if !seen.contains (pyLower (pyStrip q)) && (pyStrip q).length > 10 then
      if acc.length + 1 ≥ maxQueries then ((pyStrip q) :: acc).reverse
      else hybridCapLoop maxQueries (pyLower (pyStrip q) :: seen)
        ((pyStrip q) :: acc) rest
    else hybridCapLoop maxQueries seen acc rest

/-- The tail of `_hybrid_rewrite` (src/query_rewriter.py:504-526): cap the
accumulated queries and build the result dict. -/
def hybridFinalize (query : String) (allQueries : List String)
    (strategiesApplied : List String) (complexity : String) (gs : GenState) :
    RewriteResult × GenState :=
  let uniqueQueries := hybridCapLoop gs.maxQueries [] [] allQueries
  ({ original := query, rewritten := uniqueQueries, strategy := "hybrid",
     metadata := some [("num_variations", MetaVal.n uniqueQueries.length),
                       ("strategies_applied", MetaVal.ls strategiesApplied),
                       ("complexity", MetaVal.s complexity)],
     error := none }, gs)

/-- `QueryRewriter._hybrid_rewrite` (src/query_rewriter.py:428-526).  The
`complex` branch reads `decomposed_result["metadata"]` unconditionally; when
decomposition failed that key is absent, which raises a `KeyError` — modelled
as `.error "KeyError: metadata"`.  The `medium` branch's float test
`len(refined) > len(query) * 0.7` is modelled exactly on the rationals as
`10 * len(refined) > 7 * len(query)`. -/
def hybridRewrite (env : Env) (gs : GenState) (query : String) :
    Except String RewriteResult × GenState :=
  let complexity := determineQueryComplexity query
  if complexity = "simple" then
    let (refinedResult, gs) := refineQuery env gs query
    let refinedQuery := refinedResult.rewritten.headD ""
    if refinedQuery != query then
      let (r, gs) := hybridFinalize query [query, refinedQuery]
        ["refinement", "expansion"] complexity gs
      (.ok r, gs)
    else
      let originalMax := gs.maxQueries
      let gs := { gs with maxQueries := 2 }
      let (expandedResult, gs) := expandQuery env gs query
      let gs := { gs with maxQueries := originalMax }
      let (r, gs) := hybridFinalize query (expandedResult.rewritten.take 2)
        ["refinement", "expansion"] complexity gs
      (.ok r, gs)
  else if complexity = "complex" then
    let (decomposedResult, gs) := decomposeQuery env gs query
    match decomposedResult.metadata with
    | none => (.error "KeyError: metadata", gs)
    | some md =>
      if metaTruthy (md.lookup "was_decomposed") then
        let (r, gs) := hybridFinalize query decomposedResult.rewritten
          ["decomposition"] complexity gs
        (.ok r, gs)
      else
        let (refinedResult, gs) := refineQuery env gs query
        let refinedQuery := refinedResult.rewritten.headD ""
        let originalMax := gs.maxQueries
        let gs := { gs with maxQueries := max 2 (originalMax - 1) }
        let (expandedResult, gs) := expandQuery env gs refinedQuery
        let gs := { gs with maxQueries := originalMax }
        let allQueries := [query, refinedQuery] ++
          expandedResult.rewritten.filter (fun q => q != query && q != refinedQuery)
        let (r, gs) := hybridFinalize query allQueries
          ["refinement", "expansion"] complexity gs
        (.ok r, gs)
  else
    let (refinedResult, gs) := refineQuery env gs query
    let refinedQuery := refinedResult.rewritten.headD ""
    if refinedQuery != query && refinedQuery.length * 10 > query.length * 7 then
      let originalMax := gs.maxQueries
      let gs := { gs with maxQueries := max 2 (originalMax - 1) }
      let (expandedResult, gs) := expandQuery env gs refinedQuery
      let gs := { gs with maxQueries := originalMax }
      let expandedQueries := expandedResult.rewritten.filter
        (fun q => q != query && q != refinedQuery)
      let (r, gs) := hybridFinalize query ([query, refinedQuery] ++ expandedQueries)
        ["refinement", "expansion"] complexity gs
      (.ok r, gs)
    else
      let originalMax := gs.maxQueries
      let gs := { gs with maxQueries := max 2 originalMax }
      let (expandedResult, gs) := expandQuery env gs query
      let gs := { gs with maxQueries := originalMax }
      let (r, gs) := hybridFinalize query expandedResult.rewritten
        ["refinement", "expansion"] complexity gs
      (.ok r, gs)

/-! ## The cache and `rewrite` (src/query_rewriter.py:43-47, 160-217) -/

/-- The rewrite cache, modelled as an insertion-ordered association list
(exactly the iteration order of a Python dict). -/
abbrev Cache := List (String × RewriteResult)

def lookupCache : Cache → String → Option RewriteResult
  | [], _ => none
  | (k, v) :: rest, key => if k = key then some v else lookupCache rest key

/-- Python dict assignment `cache[key] = r`: overwrite in place when the key
is present (keeping its position in the insertion order), else append. -/
def dictSet (cache : Cache) (key : String) (r : RewriteResult) : Cache :=
  if (lookupCache cache key).isSome then
    cache.map (fun p => if p.1 = key then (key, r) else p)
  else cache ++ [(key, r)]

/-- The insert-then-evict step of `QueryRewriter.rewrite`
(src/query_rewriter.py:206-212): after inserting, if the size exceeds 100,
pop the oldest-inserted entry (`next(iter(dict))` is the head of the
insertion order). -/
def cachePut (cache : Cache) (key : String) (r : RewriteResult) : Cache :=
  if (dictSet cache key r).length > 100 then (dictSet cache key r).drop 1
  else dictSet cache key r

/-- `QueryRewriter._get_cache_key` (src/query_rewriter.py:43-47); the md5
digest is abstracted as its pre-image string. -/
def getCacheKey (strategy : RewriteStrategy) (maxQueries : Nat) (query : String)
    (ctx : Option String) : String :=
  query ++ ":" ++ strategy.value ++ ":" ++ Nat.repr maxQueries ++ ":" ++ ctx.getD ""

/-- `_deduplicate_queries` as invoked from `rewrite`: the embedding service is
consulted (consuming one embedding call) exactly when more than one variant
survives the exact-duplicate pass. -/
def deduplicateQueriesS (env : Env) (gs : GenState) (queries : List String) :
    List String × GenState :=
  if queries.length > 1 && (dedupExact queries).length > 1 then
    (deduplicateQueries (env.sim gs.simCount) queries,
     { gs with simCount := gs.simCount + 1 })
  else (deduplicateQueries none queries, gs)

/-- The semantic-deduplication block of `rewrite`
(src/query_rewriter.py:198-204).  `result["metadata"]["deduplicated"] = True`
would raise a `KeyError` on a dict without metadata — modelled faithfully,
though that branch requires a shrinking deduplication of a one-element list
and is unreachable. -/
def applyDedup (env : Env) (gs : GenState) (result : RewriteResult) :
    Except String RewriteResult × GenState :=
  if result.rewritten.length > 1 then
    let originalCount := result.rewritten.length
    let (deduped, gs) := deduplicateQueriesS env gs result.rewritten
    if deduped.length < originalCount then
      match result.metadata with
      | none => (.error "KeyError: metadata", gs)
      | some md =>
        let md := md ++ [("deduplicated", MetaVal.b true),
          ("removed_duplicates", MetaVal.n (originalCount - deduped.length))]
        (.ok { result with rewritten := deduped, metadata := some md }, gs)
    else (.ok { result with rewritten := deduped }, gs)
  else (.ok result, gs)

/-- The `finally: self.max_queries = original_max` block of `rewrite`
(src/query_rewriter.py:215-217): restore the configured `max_queries` whether
the body returned or raised. -/
def finallyRestore (originalMax : Nat) :
    Except String RewriteResult × GenState →
    Except String RewriteResult × GenState
  | (attempt, gs) => (attempt, { gs with maxQueries := originalMax })

/-- The cache-miss body of `QueryRewriter.rewrite`
(src/query_rewriter.py:179-217): adjust `max_queries`, dispatch on the
strategy, apply semantic deduplication, and restore `max_queries` in the
`finally` block (also when an exception escapes). -/
def computeResult (env : Env) (strategy : RewriteStrategy) (gs : GenState)
    (query : String) : Except String RewriteResult × GenState :=
  finallyRestore gs.maxQueries
    (let gs := { gs with maxQueries := adjustMaxQueries gs.maxQueries query }
     let (attempt, gs) : Except String RewriteResult × GenState :=
       match strategy with
       | .expansion => let (r, gs) := expandQuery env gs query; (.ok r, gs)
       | .decomposition => let (r, gs) := decomposeQuery env gs query; (.ok r, gs)
       | .refinement => let (r, gs) := refineQuery env gs query; (.ok r, gs)
       | .hybrid => hybridRewrite env gs query
     match attempt with
     | .error e => (.error e, gs)
     | .ok result => applyDedup env gs result)

/-- `QueryRewriter.rewrite` (src/query_rewriter.py:160-217): consult the
cache on the key derived from the query, the configured strategy, the
configured `max_queries` and the serialized context; on a miss compute the
result and insert it with FIFO eviction.  A raised exception leaves the cache
untouched. -/
def rewrite (env : Env) (strategy : RewriteStrategy) (cache : Cache)
    (gs : GenState) (query : String) (ctx : Option String) :
    Except String RewriteResult × Cache × GenState :=
  let cacheKey := getCacheKey strategy gs.maxQueries query ctx
  match lookupCache cache cacheKey with
  | some r => (.ok r, cache, gs)
  | none =>
    match computeResult env strategy gs query with
    | (.error e, gs) => (.error e, cache, gs)
    | (.ok result, gs) => (.ok result, cachePut cache cacheKey result, gs)

/-! ## `VectorStore.search` and `search_multiple` (src/vector_store.py:166-254) -/

/-- A formatted search hit (src/vector_store.py:200-206). -/
structure RetrievedDocument where
  content : String
  metadata : List (String × String)
  score : Rat
deriving DecidableEq, Repr

/-- The external vector-search backend: the formatted hits returned for a
query at a given `top_k`; `.error` models a raised exception. -/
abbrev Backend := String → Nat → Except String (List RetrievedDocument)

/-- `settings.top_k_results` default (src/config.py). -/
def topKResults : Nat := 5

/-- `VectorStore.search` (src/vector_store.py:166-213): an uninitialized
store returns `[]`; otherwise the backend is queried with
`top_k or settings.top_k_results` and a raised backend exception is logged
and re-raised. -/
def search (store : Option Backend) (query : String) (topK : Option Nat) :
    Except String (List RetrievedDocument) :=
  match store with
  | none => .ok []
  | some backend => backend query (topK.getD topKResults)

/-- The accumulation loop body of `search_multiple`
(src/vector_store.py:240-248) over the hits of one variant: with
deduplication, a hit whose content was already seen is dropped, otherwise it
is appended and its content recorded. -/
def accumulateHits (dedup : Bool) :
    List RetrievedDocument → List RetrievedDocument × List String →
    List RetrievedDocument × List String
  | [], acc => acc
  | r :: rest, (allResults, seenContents) =>
    if dedup then
      if seenContents.contains r.content then
        accumulateHits dedup rest (allResults, seenContents)
      else accumulateHits dedup rest (allResults ++ [r], r.content :: seenContents)
    else accumulateHits dedup rest (allResults ++ [r], seenContents)

/-- The per-variant loop of `search_multiple` (src/vector_store.py:237-248):
each variant is searched in turn; a raised search exception propagates. -/
def searchMultipleGo (store : Option Backend) (topK : Option Nat) (dedup : Bool) :
    List String → List RetrievedDocument × List String →
    Except String (List RetrievedDocument × List String)
  | [], acc => .ok acc
  | q :: rest, acc =>
    match search store q topK with
    | .error e => .error e
    | .ok results => searchMultipleGo store topK dedup rest (accumulateHits dedup results acc)

/-- The descending-by-score order of `all_results.sort(key=..., reverse=True)`
(src/vector_store.py:251).  Python's sort is stable; so is
`List.insertionSort` with this relation. -/
def scoreGe (a b : RetrievedDocument) : Prop := b.score ≤ a.score

instance : DecidableRel scoreGe :=
  fun a b => inferInstanceAs (Decidable (b.score ≤ a.score))

instance : IsTotal RetrievedDocument scoreGe :=
  ⟨fun a b => le_total b.score a.score⟩

instance : IsTrans RetrievedDocument scoreGe :=
  ⟨fun _ _ _ hab hbc => le_trans hbc hab⟩

/-- `VectorStore.search_multiple` (src/vector_store.py:215-254). -/
def searchMultiple (store : Option Backend) (queries : List String)
    (topK : Option Nat) (dedup : Bool) : Except String (List RetrievedDocument) :=
  match searchMultipleGo store topK dedup queries ([], []) with
  | .error e => .error e
  | .ok (allResults, _) => .ok (allResults.insertionSort scoreGe)

/-! ## Claim C7: the complexity classifier -/

/-- **C7.**  `classify` (`_determine_query_complexity`) is a pure function,
hence deterministic.  Every query with at most 5 whitespace-delimited words,
at most one question mark and neither conjunctive pattern `" y "` / `" o "`
is classified `"simple"`; every query with more than 15 words is classified
`"complex"`. -/
theorem determineQueryComplexity_simple_and_complex (q : String) :
    ((pySplit q).length ≤ 5 → pyCount '?' q ≤ 1 →
      pyContains " y " (pyLower q) = false → pyContains " o " (pyLower q) = false →
      determineQueryComplexity q = "simple") ∧
    ((pySplit q).length > 15 → determineQueryComplexity q = "complex") := by
  constructor
  · intro h1 h2 h3 h4
    have hc : ¬ pyCount '?' q > 1 := by omega
    simp [determineQueryComplexity, h1, h2, h3, h4, hc]
  · intro h
    have h5 : ¬ (pySplit q).length ≤ 5 := by omega
    simp [determineQueryComplexity, h, h5]

/-- Witness for C7 at two concrete queries. -/
theorem determineQueryComplexity_witness :
    determineQueryComplexity "hola mundo" = "simple" ∧
    determineQueryComplexity
      "uno dos tres cuatro cinco seis siete ocho nueve diez once doce trece catorce quince dieciseis"
      = "complex" :=
  ⟨(determineQueryComplexity_simple_and_complex "hola mundo").1
      (by decide) (by decide) (by decide) (by decide),
   (determineQueryComplexity_simple_and_complex
      "uno dos tres cuatro cinco seis siete ocho nueve diez once doce trece catorce quince dieciseis").2
      (by decide)⟩

/-! ## Claim C1: completion errors and the hybrid `KeyError` -/

/-- **C1** (code bug).  The claim says a completion-service error during any
strategy — including a sub-strategy invoked by hybrid — is absorbed and
`rewrite` returns normally.  The three base strategies do absorb errors, but
on a complex query (here 16 words) the hybrid branch calls
`_decompose_query`, whose error path returns a dict *without* a
`"metadata"` key, and then reads `decomposed_result["metadata"]`
unconditionally (src/query_rewriter.py:461).  The resulting `KeyError`
propagates out of `rewrite` to the caller. -/
theorem rewrite_hybrid_decomposition_error_propagates :
    (rewrite { completion := fun _ => Except.error "boom", sim := fun _ => none }
      RewriteStrategy.hybrid [] { maxQueries := 3, callCount := 0, simCount := 0 }
      "uno dos tres cuatro cinco seis siete ocho nueve diez once doce trece catorce quince dieciseis"
      none).1 = Except.error "KeyError: metadata" := by decide

/-! ## Claim C2: non-empty variants -/

/-- **C2** (code bug).  The claim says the variants list returned by
`rewrite` is never empty and equals `[original]` when all generation fails.
For the hybrid strategy on the 10-character simple query `"Qué es IA?"` with
every completion call failing, the final filter of `_hybrid_rewrite`
(src/query_rewriter.py:509, `len(q.strip()) > 10`) drops the original query
itself, and `rewrite` returns normally with `variants = []` — empty, not
`[original]`. -/
theorem rewrite_hybrid_returns_empty_variants :
    ((rewrite { completion := fun _ => Except.error "boom", sim := fun _ => none }
        RewriteStrategy.hybrid [] { maxQueries := 3, callCount := 0, simCount := 0 }
        "Qué es IA?" none).1.map RewriteResult.rewritten) = Except.ok [] ∧
    ([] : List String) ≠ ["Qué es IA?"] := by
  constructor
  · decide
  · decide

/-! ## Cache lemmas -/

theorem lookupCache_eq_none_iff (c : Cache) (k : String) :
    lookupCache c k = none ↔ k ∉ c.map Prod.fst := by
  induction c with
  | nil => simp [lookupCache]
  | cons p rest ih =>
    obtain ⟨k0, v0⟩ := p
    by_cases h : k0 = k
    · subst h
      simp [lookupCache]
    · simp [lookupCache, h, ih, Ne.symm h]

theorem lookupCache_append_of_none (c1 c2 : Cache) (k : String)
    (h : lookupCache c1 k = none) :
    lookupCache (c1 ++ c2) k = lookupCache c2 k := by
  induction c1 with
  | nil => simp
  | cons p rest ih =>
    obtain ⟨k0, v0⟩ := p
    by_cases hk : k0 = k
    · subst hk
      simp [lookupCache] at h
    · simp only [lookupCache, if_neg hk] at h
      simpa [lookupCache, hk] using ih h

theorem lookupCache_drop_none (c : Cache) (n : Nat) (k : String)
    (h : lookupCache c k = none) :
    lookupCache (c.drop n) k = none := by
  rw [lookupCache_eq_none_iff] at h ⊢
  intro hmem
  exact h (((c.map Prod.fst).drop_sublist n).mem (by simpa [List.map_drop] using hmem))

theorem dictSet_length_le (c : Cache) (k : String) (r : RewriteResult) :
    (dictSet c k r).length ≤ c.length + 1 := by
  unfold dictSet
  split
  · simp
  · simp

theorem dictSet_of_none (c : Cache) (k : String) (r : RewriteResult)
    (h : lookupCache c k = none) : dictSet c k r = c ++ [(k, r)] := by
  unfold dictSet
  rw [h]
  simp

theorem cachePut_length_le (c : Cache) (k : String) (r : RewriteResult)
    (h : c.length ≤ 100) : (cachePut c k r).length ≤ 100 := by
  have hd := dictSet_length_le c k r
  unfold cachePut
  split
  · simp only [List.length_drop]
    omega
  · omega

theorem lookupCache_cachePut_fresh (c : Cache) (k : String) (r : RewriteResult)
    (h : lookupCache c k = none) :
    lookupCache (cachePut c k r) k = some r := by
  unfold cachePut
  rw [dictSet_of_none c k r h]
  split
  · rename_i hlen
    have hc : 1 ≤ c.length := by
      rcases c with _ | ⟨a, l⟩
      · simp at hlen
      · simp
    rw [List.drop_append_eq_append_drop]
    have h1 : 1 - c.length = 0 := by omega
    rw [h1, List.drop_zero,
      lookupCache_append_of_none _ _ _ (lookupCache_drop_none c 1 k h)]
    simp [lookupCache]
  · rw [lookupCache_append_of_none _ _ _ h]
    simp [lookupCache]

theorem foldl_cachePut_fresh (vals : String → RewriteResult) :
    ∀ (keys : List String) (c : Cache),
      (c.map Prod.fst ++ keys).Nodup → c.length + keys.length ≤ 100 →
      keys.foldl (fun acc k => cachePut acc k (vals k)) c
        = c ++ keys.map (fun k => (k, vals k)) := by
  intro keys
  induction keys with
  | nil => intro c _ _; simp
  | cons k rest ih =>
    intro c hnd hlen
    have hk : k ∉ c.map Prod.fst := by
      rw [List.nodup_append] at hnd
      intro hmem
      exact hnd.2.2 hmem (List.mem_cons_self k rest)
    have hput : cachePut c k (vals k) = c ++ [(k, vals k)] := by
      unfold cachePut
      rw [dictSet_of_none c k (vals k) ((lookupCache_eq_none_iff c k).mpr hk)]
      have hle : ¬ (c ++ [(k, vals k)]).length > 100 := by
        simp only [List.length_append, List.length_singleton,
          List.length_cons, List.length_nil] at hlen ⊢
        omega
      rw [if_neg hle]
    rw [List.foldl_cons, hput, ih (c ++ [(k, vals k)])]
    · simp
    · simp only [List.map_append, List.map_cons, List.map_nil,
        List.append_assoc, List.singleton_append]
      exact hnd
    · simp only [List.length_append, List.length_singleton,
        List.length_cons, List.length_nil] at hlen ⊢
      omega

/-- A sequence of `rewrite` calls on one `QueryRewriter` instance, threading
the cache and the generator state (src/query_rewriter.py:528-540 iterates
`rewrite` exactly like this). -/
def runCalls (env : Env) (strategy : RewriteStrategy) :
    List (String × Option String) → Cache × GenState → Cache × GenState
  | [], s => s
  | (q, ctx) :: rest, (cache, gs) =>
    runCalls env strategy rest (rewrite env strategy cache gs q ctx).2

theorem rewrite_cache_unchanged_or_put (env : Env) (strategy : RewriteStrategy)
    (cache : Cache) (gs : GenState) (q : String) (ctx : Option String) :
    (rewrite env strategy cache gs q ctx).2.1 = cache ∨
    ∃ k r, (rewrite env strategy cache gs q ctx).2.1 = cachePut cache k r := by
  unfold rewrite
  cases hl : lookupCache cache (getCacheKey strategy gs.maxQueries q ctx) with
  | some r => simp [hl]
  | none =>
    simp only [hl]
    cases hc : computeResult env strategy gs q with
    | mk att gs2 =>
      cases att with
      | error e => simp [hc]
      | ok result => simp only [hc]; right; exact ⟨_, _, rfl⟩

theorem rewrite_cache_le_100 (env : Env) (strategy : RewriteStrategy)
    (cache : Cache) (gs : GenState) (q : String) (ctx : Option String)
    (h : cache.length ≤ 100) :
    (rewrite env strategy cache gs q ctx).2.1.length ≤ 100 := by
  rcases rewrite_cache_unchanged_or_put env strategy cache gs q ctx with he | ⟨k, r, he⟩
  · rw [he]; exact h
  · rw [he]; exact cachePut_length_le cache k r h

/-! ## Claim C4: the cache bound and FIFO eviction -/

/-- **C4.**  (1) For every sequence of `rewrite` calls, the cache holds at
most 100 entries after each call completes.  (2) Inserting 101 distinct keys
into an empty cache evicts exactly the first-inserted key — after the 101st
insertion the cache's keys, in insertion order, are precisely the 2nd through
101st inserted keys (strict FIFO, independent of access recency), and a `get`
of the first key misses. -/
theorem rewrite_cache_bound_and_fifo :
    (∀ (env : Env) (strategy : RewriteStrategy)
       (calls : List (String × Option String)) (cache : Cache) (gs : GenState),
       cache.length ≤ 100 →
       (runCalls env strategy calls (cache, gs)).1.length ≤ 100) ∧
    (∀ (keys : List String) (vals : String → RewriteResult),
       keys.Nodup → keys.length = 101 →
       (keys.foldl (fun c k => cachePut c k (vals k)) []).map Prod.fst = keys.tail ∧
       lookupCache (keys.foldl (fun c k => cachePut c k (vals k)) [])
         (keys.headD "") = none) := by
  constructor
  · intro env strategy calls
    induction calls with
    | nil => intro cache gs h; exact h
    | cons call rest ih =>
      intro cache gs h
      obtain ⟨q, ctx⟩ := call
      have h1 := rewrite_cache_le_100 env strategy cache gs q ctx h
      simpa [runCalls] using ih _ _ h1
  · intro keys vals hnd hlen
    obtain ⟨f0, keys1, rfl⟩ : ∃ f0 keys1, keys = f0 :: keys1 := by
      cases keys with
      | nil => simp at hlen
      | cons a l => exact ⟨a, l, rfl⟩
    obtain ⟨ft, last, rfl⟩ : ∃ ft last, keys1 = ft ++ [last] := by
      cases keys1 with
      | nil => simp at hlen
      | cons b l =>
        refine ⟨(b :: l).dropLast, (b :: l).getLast (by simp), ?_⟩
        exact (List.dropLast_append_getLast (by simp)).symm
    have hfront : (f0 :: ft).length = 100 := by
      simp only [List.length_cons, List.length_append, List.length_singleton,
        List.length_nil] at hlen ⊢
      omega
    have hf0 : f0 ∉ ft ++ [last] := (List.nodup_cons.mp hnd).1
    have hnd1 : (ft ++ [last]).Nodup := (List.nodup_cons.mp hnd).2
    have hlastft : last ∉ ft := by
      rw [List.nodup_append] at hnd1
      intro hmem
      exact hnd1.2.2 hmem (List.mem_singleton_self last)
    have hlastf0ft : last ∉ f0 :: ft := by
      intro hmem
      rcases List.mem_cons.mp hmem with he | hmem2
      · exact hf0 (by simp [he])
      · exact hlastft hmem2
    have hndf0ft : (f0 :: ft).Nodup := by
      rw [List.nodup_cons]
      refine ⟨fun hmem => hf0 (List.mem_append_left _ hmem), ?_⟩
      rw [List.nodup_append] at hnd1
      exact hnd1.1
    have hkeys : f0 :: (ft ++ [last]) = (f0 :: ft) ++ [last] := by simp
    rw [hkeys]
    have hfold : ((f0 :: ft) ++ [last]).foldl (fun c k => cachePut c k (vals k)) []
        = cachePut ((f0 :: ft).map (fun k => (k, vals k))) last (vals last) := by
      rw [List.foldl_append]
      have hx : List.foldl (fun c k => cachePut c k (vals k)) [] (f0 :: ft)
          = (f0 :: ft).map (fun k => (k, vals k)) := by
        have := foldl_cachePut_fresh vals (f0 :: ft) [] (by simpa using hndf0ft)
          (by simp [hfront])
        simpa only [List.nil_append] using this
      rw [hx]
      rfl
    have hlast : lookupCache ((f0 :: ft).map (fun k => (k, vals k))) last = none := by
      rw [lookupCache_eq_none_iff]
      intro hmem
      simp only [List.map_map] at hmem
      exact hlastf0ft (by simpa using hmem)
    have hput : cachePut ((f0 :: ft).map (fun k => (k, vals k))) last (vals last)
        = (ft.map (fun k => (k, vals k))) ++ [(last, vals last)] := by
      unfold cachePut
      rw [dictSet_of_none _ _ _ hlast]
      have hgt : ((f0 :: ft).map (fun k => (k, vals k)) ++ [(last, vals last)]).length > 100 := by
        simp only [List.length_append, List.length_map, List.length_singleton, hfront]
        omega
      rw [if_pos hgt]
      simp
    rw [hfold, hput]
    constructor
    · simp [Function.comp_def]
    · have hhead : ((f0 :: ft) ++ [last]).headD "" = f0 := by simp
      rw [hhead, lookupCache_eq_none_iff]
      intro hmem
      apply hf0
      have : f0 ∈ ft ++ [last] := by
        simpa using hmem
      exact this

/-- 101 pairwise-distinct cache keys. -/
def keys101 : List String := (List.range 101).map (fun i => "k" ++ Nat.repr i)

/-- A concrete cached value used by the cache witnesses. -/
def rwDefault : RewriteResult :=
  { original := "x", rewritten := ["x"], strategy := "none",
    metadata := none, error := none }

/-- Witness for C4: a `rewrite` call sequence from an empty cache stays within
the bound, and folding 101 distinct insertions evicts exactly the first key. -/
theorem rewrite_cache_bound_and_fifo_witness :
    (runCalls { completion := fun _ => Except.error "x", sim := fun _ => none }
       RewriteStrategy.refinement [("hola", none)]
       ([], { maxQueries := 3, callCount := 0, simCount := 0 })).1.length ≤ 100 ∧
    ((keys101.foldl (fun c k => cachePut c k rwDefault) []).map Prod.fst
        = keys101.tail ∧
     lookupCache (keys101.foldl (fun c k => cachePut c k rwDefault) [])
       (keys101.headD "") = none) :=
  ⟨rewrite_cache_bound_and_fifo.1 _ _ _ _ _ (by decide),
   rewrite_cache_bound_and_fifo.2 keys101 (fun _ => rwDefault) (by decide) (by decide)⟩

/-! ## Claim C6: cache-hit idempotence -/

theorem finallyRestore_maxQueries (m : Nat)
    (p : Except String RewriteResult × GenState) :
    (finallyRestore m p).2.maxQueries = m := by
  obtain ⟨a, b⟩ := p
  rfl

theorem computeResult_maxQueries (env : Env) (strategy : RewriteStrategy)
    (gs : GenState) (q : String) :
    (computeResult env strategy gs q).2.maxQueries = gs.maxQueries := by
  unfold computeResult
  exact finallyRestore_maxQueries _ _

/-- **C6.**  The cache key is (by definition of `getCacheKey`) a pure function
of the query, the strategy, the configured `maxQueries` and the serialized
context, and the first call restores `maxQueries`, so the second call derives
the same key (first conjunct).  Consequently, a second `rewrite` call with the
same query and context on the state left by a successful first call is a
cache hit: it returns the identical RewriteResult value, leaves the cache and
the generator state untouched, and does so for ANY behaviour `env2` of the
external services — no completion or embedding call is consulted. -/
theorem rewrite_second_call_cache_hit (env env2 : Env)
    (strategy : RewriteStrategy) (cache : Cache) (gs : GenState) (q : String)
    (ctx : Option String) (r : RewriteResult) (cache2 : Cache) (gs2 : GenState)
    (h : rewrite env strategy cache gs q ctx = (.ok r, cache2, gs2)) :
    getCacheKey strategy gs2.maxQueries q ctx
      = getCacheKey strategy gs.maxQueries q ctx ∧
    rewrite env2 strategy cache2 gs2 q ctx = (.ok r, cache2, gs2) := by
  unfold rewrite at h
  cases hl : lookupCache cache (getCacheKey strategy gs.maxQueries q ctx) with
  | some r0 =>
    simp only [hl, Prod.mk.injEq, Except.ok.injEq] at h
    obtain ⟨hr, hcache, hgs⟩ := h
    subst hr hcache hgs
    refine ⟨rfl, ?_⟩
    unfold rewrite
    simp only [hl]
  | none =>
    simp only [hl] at h
    cases hc : computeResult env strategy gs q with
    | mk att gs3 =>
      simp only [hc] at h
      cases att with
      | error e => simp at h
      | ok result =>
        simp only [Prod.mk.injEq, Except.ok.injEq] at h
        obtain ⟨hr, hcache, hgs⟩ := h
        subst hr
        have hmax : gs2.maxQueries = gs.maxQueries := by
          have hm := computeResult_maxQueries env strategy gs q
          rw [hc] at hm
          rw [← hgs]
          exact hm
        have hkey : getCacheKey strategy gs2.maxQueries q ctx
            = getCacheKey strategy gs.maxQueries q ctx := by rw [hmax]
        refine ⟨hkey, ?_⟩
        unfold rewrite
        rw [hkey, ← hcache]
        simp only [lookupCache_cachePut_fresh cache _ result hl]

/-- The RewriteResult produced by the C6 witness's first call. -/
def c6Result : RewriteResult :=
  { original := "hola", rewritten := ["hola"], strategy := "refinement",
    metadata := none, error := some "boom" }

/-- The cache produced by the C6 witness's first call. -/
def c6Cache : Cache := [("hola:refinement:3:", c6Result)]

/-- Witness for C6: a concrete first call (refinement strategy, completion
service failing) populates the cache; the second call is a hit returning the
identical value with the state unchanged, under a different service
behaviour. -/
theorem rewrite_second_call_cache_hit_witness :
    getCacheKey RewriteStrategy.refinement 3 "hola" none
      = getCacheKey RewriteStrategy.refinement 3 "hola" none ∧
    rewrite { completion := fun _ => Except.error "nope", sim := fun _ => none }
      RewriteStrategy.refinement c6Cache
      { maxQueries := 3, callCount := 1, simCount := 0 } "hola" none
      = (.ok c6Result, c6Cache, { maxQueries := 3, callCount := 1, simCount := 0 }) :=
  rewrite_second_call_cache_hit
    { completion := fun _ => Except.error "boom", sim := fun _ => none }
    { completion := fun _ => Except.error "nope", sim := fun _ => none }
    RewriteStrategy.refinement [] { maxQueries := 3, callCount := 0, simCount := 0 }
    "hola" none c6Result c6Cache
    { maxQueries := 3, callCount := 1, simCount := 0 } (by decide)

/-! ## Claim C3: retrieval failure during multi-variant fusion -/

/-- **C3 counterexample.**  The claim says a search failure for one (but not
all) variants is treated as zero hits and the fusion still returns the other
variants' results, a hard error being raised only when every variant fails.
In the code `VectorStore.search` re-raises any backend exception
(src/vector_store.py:211-213) and `search_multiple` has no handler around its
per-variant `self.search(query, top_k)` call: with a backend that succeeds
for `"a"` (one hit) and raises for `"b"`, the fused search raises instead of
returning the hit for `"a"`. -/
theorem searchMultiple_partial_failure_raises :
    searchMultiple
      (some (fun q _ =>
        if q = "a" then Except.ok [{ content := "doc a", metadata := [], score := 2 }]
        else Except.error "connection refused"))
      ["a", "b"] none true = Except.error "connection refused" := by decide

theorem searchMultipleGo_error (backend : Backend) (topK : Option Nat)
    (dedup : Bool) (q : String) (e : String) (qs2 : List String)
    (herr : backend q (topK.getD topKResults) = Except.error e) :
    ∀ (qs1 : List String) (acc : List RetrievedDocument × List String),
      (∀ q1 ∈ qs1, ∃ hits, backend q1 (topK.getD topKResults) = Except.ok hits) →
      searchMultipleGo (some backend) topK dedup (qs1 ++ q :: qs2) acc
        = Except.error e := by
  intro qs1
  induction qs1 with
  | nil =>
    intro acc _
    simp [searchMultipleGo, search, herr]
  | cons q1 rest ih =>
    intro acc hok
    obtain ⟨hits, hh⟩ := hok q1 (by simp)
    simp only [List.cons_append, searchMultipleGo, search, hh]
    exact ih _ (fun x hx => hok x (by simp [hx]))

/-- **C3 (amended).**  If the backend search raises for any variant — even
when every other variant succeeds — `search_multiple` propagates that
exception to the caller and returns no fused result; a failed variant is NOT
treated as an empty hit set.  (Only an uninitialized store yields empty hits
without raising.) -/
theorem searchMultiple_any_failure_propagates (backend : Backend)
    (qs1 qs2 : List String) (q : String) (topK : Option Nat) (dedup : Bool)
    (e : String)
    (hok : ∀ q1 ∈ qs1, ∃ hits, backend q1 (topK.getD topKResults) = Except.ok hits)
    (herr : backend q (topK.getD topKResults) = Except.error e) :
    searchMultiple (some backend) (qs1 ++ q :: qs2) topK dedup
      = Except.error e := by
  unfold searchMultiple
  rw [searchMultipleGo_error backend topK dedup q e qs2 herr qs1 ([], []) hok]

/-- Witness for the amended C3: the first variant succeeds, the second raises,
and the error propagates. -/
theorem searchMultiple_any_failure_propagates_witness :
    searchMultiple
      (some (fun q _ => if q = "a" then Except.ok [] else Except.error "down"))
      ["a", "b"] none true = Except.error "down" :=
  searchMultiple_any_failure_propagates
    (fun q _ => if q = "a" then Except.ok [] else Except.error "down")
    ["a"] [] "b" none true "down"
    (fun q1 hq1 => ⟨[], by rcases List.mem_singleton.mp hq1 with rfl; decide⟩)
    (by decide)

/-! ## Claim C9: expansion post-processing -/

/-- **C9 counterexample.**  The claim says the expansion post-processing
prepends the original and truncates to `maxVariants`, so the returned
variants list has length at most `maxVariants`.  The code truncates the
generated lines to `max_queries` BEFORE prepending the original
(src/query_rewriter.py:270 then 276): with `max_queries = 3` and a completion
output of three usable lines, `_expand_query` returns a variants list of
length 4 > 3, while still reporting success (`error` unset). -/
theorem expandQuery_counterexample :
    ((expandQuery
        { completion := fun _ => Except.ok
            "cobertura medica uno\ncobertura medica dos\ncobertura medica tres",
          sim := fun _ => none }
        { maxQueries := 3, callCount := 0, simCount := 0 }
        "plan de salud").1.rewritten.length = 4 ∧
     (expandQuery
        { completion := fun _ => Except.ok
            "cobertura medica uno\ncobertura medica dos\ncobertura medica tres",
          sim := fun _ => none }
        { maxQueries := 3, callCount := 0, simCount := 0 }
        "plan de salud").1.error = none ∧
     ¬ (4 ≤ 3)) := by decide

/-- **C9 (amended).**  For every successful expansion-strategy generation,
the completion output is split by line, each line stripped, the lines of 10
characters or fewer dropped, the remaining lines truncated to `maxVariants`,
and the original query prepended AFTER that truncation: the returned variants
list begins with the original query and has length at most
`maxVariants + 1` (not `maxVariants`). -/
theorem expandQuery_postprocessing (env : Env) (gs : GenState)
    (q content : String) (h : env.completion gs.callCount = Except.ok content) :
    (expandQuery env gs q).1.rewritten
      = q :: (processLines content).take gs.maxQueries ∧
    (expandQuery env gs q).1.rewritten.headD "" = q ∧
    (expandQuery env gs q).1.rewritten.length ≤ gs.maxQueries + 1 ∧
    (expandQuery env gs q).1.error = none := by
  refine ⟨?_, ?_, ?_, ?_⟩
  · simp [expandQuery, h]
  · simp [expandQuery, h]
  · simp only [expandQuery, h, List.length_cons, List.length_take]
    omega
  · simp [expandQuery, h]

/-- A completion output used by the C9 witness. -/
def c9Env : Env :=
  { completion := fun _ => Except.ok "cobertura medica uno\ncobertura medica dos",
    sim := fun _ => none }

/-- Witness for the amended C9 at a concrete completion output. -/
theorem expandQuery_postprocessing_witness :
    (expandQuery c9Env { maxQueries := 3, callCount := 0, simCount := 0 }
        "plan de salud").1.rewritten
      = "plan de salud" ::
        (processLines "cobertura medica uno\ncobertura medica dos").take 3 ∧
    (expandQuery c9Env { maxQueries := 3, callCount := 0, simCount := 0 }
        "plan de salud").1.rewritten.headD "" = "plan de salud" ∧
    (expandQuery c9Env { maxQueries := 3, callCount := 0, simCount := 0 }
        "plan de salud").1.rewritten.length ≤ 3 + 1 ∧
    (expandQuery c9Env { maxQueries := 3, callCount := 0, simCount := 0 }
        "plan de salud").1.error = none :=
  expandQuery_postprocessing c9Env { maxQueries := 3, callCount := 0, simCount := 0 }
    "plan de salud" "cobertura medica uno\ncobertura medica dos" (by decide)

/-! ## Sublist lemmas for the deduplication passes -/

theorem dedupByKey_sublist (key : α → String) :
    ∀ (seen : List String) (l : List α), List.Sublist (dedupByKey key seen l) l := by
  intro seen l
  induction l generalizing seen with
  | nil => simp [dedupByKey]
  | cons x rest ih =>
    unfold dedupByKey
    split
    · exact (ih seen).cons x
    · exact (ih (key x :: seen)).cons₂ x

theorem removeIdx_sublist (toRemove : List Nat) :
    ∀ (k : Nat) (l : List String), List.Sublist (removeIdx toRemove k l) l := by
  intro k l
  induction l generalizing k with
  | nil => simp [removeIdx]
  | cons q rest ih =>
    unfold removeIdx
    split
    · exact (ih (k + 1)).cons q
    · exact (ih (k + 1)).cons₂ q

theorem deduplicateQueries_sublist (simOracle : Option (Nat → Nat → Rat))
    (queries : List String) :
    List.Sublist (deduplicateQueries simOracle queries) queries := by
  unfold deduplicateQueries
  split
  · exact List.Sublist.refl _
  · dsimp only
    split
    · exact dedupByKey_sublist exactKey [] queries
    · split
      · exact dedupByKey_sublist exactKey [] queries
      · exact (removeIdx_sublist _ 0 _).trans (dedupByKey_sublist exactKey [] queries)

theorem deduplicateQueriesS_length_le (env : Env) (gs : GenState)
    (queries : List String) :
    (deduplicateQueriesS env gs queries).1.length ≤ queries.length := by
  unfold deduplicateQueriesS
  split
  · exact (deduplicateQueries_sublist _ queries).length_le
  · exact (deduplicateQueries_sublist none queries).length_le

theorem applyDedup_length_le (env : Env) (gs : GenState)
    (result r2 : RewriteResult) (gs2 : GenState)
    (h : applyDedup env gs result = (.ok r2, gs2)) :
    r2.rewritten.length ≤ result.rewritten.length := by
  unfold applyDedup at h
  split at h
  · cases hd : deduplicateQueriesS env gs result.rewritten with
    | mk deduped gsx =>
      have hlen := deduplicateQueriesS_length_le env gs result.rewritten
      rw [hd] at hlen
      simp only [hd] at h
      split at h
      · cases hm : result.metadata with
        | none => rw [hm] at h; simp at h
        | some md =>
          rw [hm] at h
          simp only [Prod.mk.injEq, Except.ok.injEq] at h
          rw [← h.1]
          exact hlen
      · simp only [Prod.mk.injEq, Except.ok.injEq] at h
        rw [← h.1]
        exact hlen
  · simp only [Prod.mk.injEq, Except.ok.injEq] at h
    rw [← h.1]

/-! ## Bounds on the hybrid cap loop -/

theorem hybridCapLoop_length_of_lt (maxQ : Nat) :
    ∀ (l seen acc : List String), acc.length < maxQ →
      (hybridCapLoop maxQ seen acc l).length ≤ maxQ := by
  intro l
  induction l with
  | nil =>
    intro seen acc h
    simp only [hybridCapLoop, List.length_reverse]
    omega
  | cons q rest ih =>
    intro seen acc h
    unfold hybridCapLoop
    by_cases hc : (!seen.contains (pyLower (pyStrip q))
        && decide ((pyStrip q).length > 10)) = true
    · rw [if_pos hc]
      by_cases hs : acc.length + 1 ≥ maxQ
      · rw [if_pos hs]
        simp only [List.length_reverse, List.length_cons]
        omega
      · rw [if_neg hs]
        exact ih _ _ (by simp only [List.length_cons]; omega)
    · rw [if_neg hc]
      exact ih _ _ h

theorem hybridCapLoop_zero_length :
    ∀ (l seen acc : List String),
      (hybridCapLoop 0 seen acc l).length ≤ acc.length + 1 := by
  intro l
  induction l with
  | nil =>
    intro seen acc
    simp only [hybridCapLoop, List.length_reverse]
    omega
  | cons q rest ih =>
    intro seen acc
    unfold hybridCapLoop
    by_cases hc : (!seen.contains (pyLower (pyStrip q))
        && decide ((pyStrip q).length > 10)) = true
    · rw [if_pos hc, if_pos (by omega : acc.length + 1 ≥ 0)]
      simp
    · rw [if_neg hc]
      exact ih _ _

theorem hybridCapLoop_from_nil_le (maxQ : Nat) (seen l : List String) :
    (hybridCapLoop maxQ seen [] l).length ≤ max 1 maxQ := by
  cases maxQ with
  | zero =>
    have := hybridCapLoop_zero_length l seen []
    simp only [List.length_nil] at this
    omega
  | succ k =>
    have := hybridCapLoop_length_of_lt (k + 1) l seen [] (by simp)
    omega

/-! ## State preservation of the strategy methods -/

theorem refineQuery_maxQueries (env : Env) (gs : GenState) (q : String) :
    (refineQuery env gs q).2.maxQueries = gs.maxQueries := by
  rcases hx : env.completion gs.callCount with e | content <;>
    simp [refineQuery, hx]

theorem expandQuery_maxQueries (env : Env) (gs : GenState) (q : String) :
    (expandQuery env gs q).2.maxQueries = gs.maxQueries := by
  rcases hx : env.completion gs.callCount with e | content <;>
    simp [expandQuery, hx]

/-! ## Claim C10: at most two variants for simple queries under hybrid -/

theorem hybridRewrite_simple_length (env : Env) (gs : GenState) (q : String)
    (hsimple : determineQueryComplexity q = "simple") (r : RewriteResult)
    (gs2 : GenState) (h : hybridRewrite env gs q = (.ok r, gs2)) :
    r.rewritten.length ≤ max 1 gs.maxQueries := by
  unfold hybridRewrite at h
  rw [hsimple] at h
  rcases hrf : refineQuery env gs q with ⟨refinedResult, gs3⟩
  rw [hrf] at h
  have hmax3 : gs3.maxQueries = gs.maxQueries := by
    have hp := refineQuery_maxQueries env gs q
    rw [hrf] at hp
    exact hp
  simp only [reduceIte] at h
  by_cases hbq : (refinedResult.rewritten.headD "" != q) = true
  · rw [if_pos hbq] at h
    unfold hybridFinalize at h
    simp only [Prod.mk.injEq, Except.ok.injEq] at h
    rw [← h.1]
    rw [← hmax3]
    exact hybridCapLoop_from_nil_le gs3.maxQueries [] _
  · rw [if_neg hbq] at h
    rcases hex : expandQuery env { gs3 with maxQueries := 2 } q with ⟨expandedResult, gs5⟩
    rw [hex] at h
    unfold hybridFinalize at h
    simp only [Prod.mk.injEq, Except.ok.injEq] at h
    rw [← h.1]
    rw [← hmax3]
    exact hybridCapLoop_from_nil_le gs3.maxQueries [] _

theorem computeResult_simple_hybrid_length (env : Env) (gs : GenState)
    (q : String) (hsimple : determineQueryComplexity q = "simple")
    (r : RewriteResult) (gs2 : GenState)
    (h : computeResult env .hybrid gs q = (.ok r, gs2)) :
    r.rewritten.length ≤ 2 := by
  unfold computeResult at h
  have hadj : adjustMaxQueries gs.maxQueries q = min 2 gs.maxQueries := by
    simp [adjustMaxQueries, hsimple]
  rw [hadj] at h
  dsimp only at h
  rcases hh : hybridRewrite env { gs with maxQueries := min 2 gs.maxQueries } q
    with ⟨att1, gs3⟩
  rw [hh] at h
  dsimp only at h
  cases att1 with
  | error e =>
    simp [finallyRestore] at h
  | ok r0 =>
    dsimp only at h
    have hlen0 : r0.rewritten.length ≤ max 1 (min 2 gs.maxQueries) :=
      hybridRewrite_simple_length env _ q hsimple r0 gs3 hh
    rcases ha : applyDedup env gs3 r0 with ⟨att2, gs4⟩
    rw [ha] at h
    cases att2 with
    | error e => simp [finallyRestore] at h
    | ok r1 =>
      have hle := applyDedup_length_le env gs3 r0 r1 gs4 ha
      simp only [finallyRestore, Prod.mk.injEq, Except.ok.injEq] at h
      rw [← h.1]
      have : max 1 (min 2 gs.maxQueries) ≤ 2 := by omega
      omega

/-- **C10.**  For every query classified `"simple"`, a (cache-miss) `rewrite`
call with the hybrid strategy returns at most 2 variants regardless of the
configured `max_queries`: `_adjust_max_queries` lowers the effective budget to
`min(2, max_queries)` before the hybrid branch runs (first conjunct), and the
final cap loop of `_hybrid_rewrite` uses that lowered budget (second
conjunct). -/
theorem rewrite_simple_hybrid_at_most_two (env : Env) (cache : Cache)
    (gs : GenState) (q : String) (ctx : Option String) (r : RewriteResult)
    (cache2 : Cache) (gs2 : GenState)
    (hsimple : determineQueryComplexity q = "simple")
    (hmiss : lookupCache cache (getCacheKey .hybrid gs.maxQueries q ctx) = none)
    (hok : rewrite env .hybrid cache gs q ctx = (.ok r, cache2, gs2)) :
    adjustMaxQueries gs.maxQueries q = min 2 gs.maxQueries ∧
    r.rewritten.length ≤ 2 := by
  refine ⟨by simp [adjustMaxQueries, hsimple], ?_⟩
  unfold rewrite at hok
  simp only [hmiss] at hok
  rcases hc : computeResult env .hybrid gs q with ⟨att, gs3⟩
  rw [hc] at hok
  cases att with
  | error e => simp at hok
  | ok result =>
    simp only [Prod.mk.injEq, Except.ok.injEq] at hok
    rw [← hok.1]
    exact computeResult_simple_hybrid_length env gs q hsimple result gs3 hc

/-- A 2-word, 14-character query used by the C10 witness. -/
def c10Query : String := "consulta breve"

/-- The RewriteResult produced by the C10 witness run (every completion call
fails, so the hybrid simple path degrades to the original query). -/
def c10Result : RewriteResult :=
  { original := c10Query, rewritten := [c10Query], strategy := "hybrid",
    metadata := some [("num_variations", MetaVal.n 1),
                      ("strategies_applied", MetaVal.ls ["refinement", "expansion"]),
                      ("complexity", MetaVal.s "simple")],
    error := none }

/-- Witness for C10 at a concrete simple query with `max_queries = 3`. -/
theorem rewrite_simple_hybrid_at_most_two_witness :
    adjustMaxQueries 3 c10Query = min 2 3 ∧
    (c10Result).rewritten.length ≤ 2 :=
  rewrite_simple_hybrid_at_most_two
    { completion := fun _ => Except.error "boom", sim := fun _ => none }
    [] { maxQueries := 3, callCount := 0, simCount := 0 } c10Query none
    c10Result
    [(getCacheKey .hybrid 3 c10Query none, c10Result)]
    { maxQueries := 3, callCount := 2, simCount := 0 }
    (by decide) (by decide) (by decide)

/-! ## First-occurrence deduplication: key lemmas -/

theorem listContains_iff {α : Type _} [BEq α] [LawfulBEq α] (l : List α) (a : α) :
    l.contains a = true ↔ a ∈ l := by
  induction l with
  | nil => simp
  | cons x rest ih =>
    simp only [List.contains_cons, Bool.or_eq_true, beq_iff_eq, ih, List.mem_cons]

/-- The seen-key set after one pass of a first-occurrence deduplication
loop (the loop invariant shared by `_deduplicate_queries` and
`search_multiple`). -/
def seenAfter (key : α → String) (seen : List String) : List α → List String
  | [] => seen
  | x :: rest =>
    if seen.contains (key x) then seenAfter key seen rest
    else seenAfter key (key x :: seen) rest

theorem dedupByKey_key_not_mem_seen (key : α → String) :
    ∀ (seen : List String) (l : List α) (x : α),
      x ∈ dedupByKey key seen l → key x ∉ seen := by
  intro seen l
  induction l generalizing seen with
  | nil => intro x hx; simp [dedupByKey] at hx
  | cons y rest ih =>
    intro x hx
    unfold dedupByKey at hx
    split at hx
    · exact ih seen x hx
    · rename_i hc
      rcases List.mem_cons.mp hx with rfl | hx2
      · intro hmem
        exact hc ((listContains_iff _ _).mpr hmem)
      · intro hmem
        exact ih (key y :: seen) x hx2 (by simp [hmem])

theorem dedupByKey_keys_nodup (key : α → String) :
    ∀ (seen : List String) (l : List α),
      ((dedupByKey key seen l).map key).Nodup := by
  intro seen l
  induction l generalizing seen with
  | nil => simp [dedupByKey]
  | cons y rest ih =>
    unfold dedupByKey
    split
    · exact ih seen
    · simp only [List.map_cons, List.nodup_cons]
      refine ⟨?_, ih (key y :: seen)⟩
      intro hmem
      obtain ⟨x, hx, hkx⟩ := List.mem_map.mp hmem
      exact dedupByKey_key_not_mem_seen key (key y :: seen) rest x hx
        (by simp [hkx])

theorem dedupByKey_find (key : α → String) :
    ∀ (seen : List String) (l : List α) (x : α), x ∈ dedupByKey key seen l →
      l.find? (fun y => key y == key x) = some x := by
  intro seen l
  induction l generalizing seen with
  | nil => intro x hx; simp [dedupByKey] at hx
  | cons y rest ih =>
    intro x hx
    unfold dedupByKey at hx
    split at hx
    · rename_i hc
      have hne : key y ≠ key x := by
        intro he
        exact dedupByKey_key_not_mem_seen key seen rest x hx
          (by rw [← he]; exact (listContains_iff _ _).mp hc)
      rw [List.find?_cons_of_neg _ (by simp [hne])]
      exact ih seen x hx
    · rcases List.mem_cons.mp hx with rfl | hx2
      · rw [List.find?_cons_of_pos _ (by simp)]
      · have hne : key y ≠ key x := by
          intro he
          exact dedupByKey_key_not_mem_seen key (key y :: seen) rest x hx2
            (by simp [he])
        rw [List.find?_cons_of_neg _ (by simp [hne])]
        exact ih (key y :: seen) x hx2

theorem dedupByKey_key_covers (key : α → String) :
    ∀ (seen : List String) (l : List α) (x : α), x ∈ l →
      key x ∈ seen ∨ key x ∈ (dedupByKey key seen l).map key := by
  intro seen l
  induction l generalizing seen with
  | nil => intro x hx; simp at hx
  | cons y rest ih =>
    intro x hx
    unfold dedupByKey
    rcases List.mem_cons.mp hx with rfl | hx2
    · split
      · rename_i hc
        exact Or.inl ((listContains_iff _ _).mp hc)
      · right
        simp
    · split
      · exact ih seen x hx2
      · rcases ih (key y :: seen) x hx2 with hs | hm
        · rcases List.mem_cons.mp hs with he | hs2
          · right; simp [he]
          · exact Or.inl hs2
        · right
          simp only [List.map_cons, List.mem_cons]
          exact Or.inr hm

theorem dedupByKey_cons_pos (key : α → String) (seen : List String) (y : α)
    (l : List α) (hc : seen.contains (key y) = true) :
    dedupByKey key seen (y :: l) = dedupByKey key seen l := by
  conv_lhs => unfold dedupByKey
  rw [if_pos hc]

theorem dedupByKey_cons_neg (key : α → String) (seen : List String) (y : α)
    (l : List α) (hc : ¬ seen.contains (key y) = true) :
    dedupByKey key seen (y :: l) = y :: dedupByKey key (key y :: seen) l := by
  conv_lhs => unfold dedupByKey
  rw [if_neg hc]

theorem seenAfter_cons_pos (key : α → String) (seen : List String) (y : α)
    (l : List α) (hc : seen.contains (key y) = true) :
    seenAfter key seen (y :: l) = seenAfter key seen l := by
  conv_lhs => unfold seenAfter
  rw [if_pos hc]

theorem seenAfter_cons_neg (key : α → String) (seen : List String) (y : α)
    (l : List α) (hc : ¬ seen.contains (key y) = true) :
    seenAfter key seen (y :: l) = seenAfter key (key y :: seen) l := by
  conv_lhs => unfold seenAfter
  rw [if_neg hc]

theorem dedupByKey_append (key : α → String) :
    ∀ (l1 l2 : List α) (seen : List String),
      dedupByKey key seen (l1 ++ l2)
        = dedupByKey key seen l1 ++ dedupByKey key (seenAfter key seen l1) l2 := by
  intro l1
  induction l1 with
  | nil => intro l2 seen; simp [dedupByKey, seenAfter]
  | cons y rest ih =>
    intro l2 seen
    simp only [List.cons_append]
    by_cases hc : seen.contains (key y) = true
    · rw [dedupByKey_cons_pos key seen y _ hc, dedupByKey_cons_pos key seen y _ hc,
        seenAfter_cons_pos key seen y _ hc]
      exact ih l2 seen
    · rw [dedupByKey_cons_neg key seen y _ hc, dedupByKey_cons_neg key seen y _ hc,
        seenAfter_cons_neg key seen y _ hc, List.cons_append]
      rw [ih l2 (key y :: seen)]

theorem seenAfter_append (key : α → String) :
    ∀ (l1 l2 : List α) (seen : List String),
      seenAfter key seen (l1 ++ l2)
        = seenAfter key (seenAfter key seen l1) l2 := by
  intro l1
  induction l1 with
  | nil => intro l2 seen; simp [seenAfter]
  | cons y rest ih =>
    intro l2 seen
    simp only [List.cons_append]
    by_cases hc : seen.contains (key y) = true
    · rw [seenAfter_cons_pos key seen y _ hc, seenAfter_cons_pos key seen y _ hc]
      exact ih l2 seen
    · rw [seenAfter_cons_neg key seen y _ hc, seenAfter_cons_neg key seen y _ hc]
      exact ih l2 (key y :: seen)

/-! ## Claim C5: multi-variant fusion deduplicates by content and sorts -/

theorem accumulateHits_cons_pos (r : RetrievedDocument)
    (rest : List RetrievedDocument) (a : List RetrievedDocument)
    (s : List String) (hc : s.contains r.content = true) :
    accumulateHits true (r :: rest) (a, s) = accumulateHits true rest (a, s) := by
  conv_lhs => unfold accumulateHits
  rw [if_pos rfl, if_pos hc]

theorem accumulateHits_cons_neg (r : RetrievedDocument)
    (rest : List RetrievedDocument) (a : List RetrievedDocument)
    (s : List String) (hc : ¬ s.contains r.content = true) :
    accumulateHits true (r :: rest) (a, s)
      = accumulateHits true rest (a ++ [r], r.content :: s) := by
  conv_lhs => unfold accumulateHits
  rw [if_pos rfl, if_neg hc]

/-- The accumulation loop of `search_multiple` over one variant's hits is
exactly first-occurrence deduplication by `content` threaded through the
`seen_contents` set. -/
theorem accumulateHits_spec :
    ∀ (l a : List RetrievedDocument) (s : List String),
      accumulateHits true l (a, s)
        = (a ++ dedupByKey RetrievedDocument.content s l,
           seenAfter RetrievedDocument.content s l) := by
  intro l
  induction l with
  | nil =>
    intro a s
    simp [accumulateHits, dedupByKey, seenAfter]
  | cons r rest ih =>
    intro a s
    by_cases hc : s.contains r.content = true
    · rw [accumulateHits_cons_pos r rest a s hc,
        dedupByKey_cons_pos RetrievedDocument.content s r rest hc,
        seenAfter_cons_pos RetrievedDocument.content s r rest hc]
      exact ih a s
    · rw [accumulateHits_cons_neg r rest a s hc,
        dedupByKey_cons_neg RetrievedDocument.content s r rest hc,
        seenAfter_cons_neg RetrievedDocument.content s r rest hc,
        ih (a ++ [r]) (r.content :: s)]
      simp

theorem searchMultipleGo_total (f : String → Nat → List RetrievedDocument)
    (topK : Option Nat) :
    ∀ (queries : List String) (a : List RetrievedDocument) (s : List String),
      searchMultipleGo (some (fun q k => Except.ok (f q k))) topK true queries (a, s)
        = Except.ok
            (a ++ dedupByKey RetrievedDocument.content s
              ((queries.map (fun q => f q (topK.getD topKResults))).flatten),
             seenAfter RetrievedDocument.content s
              ((queries.map (fun q => f q (topK.getD topKResults))).flatten)) := by
  intro queries
  induction queries with
  | nil =>
    intro a s
    simp [searchMultipleGo, dedupByKey, seenAfter]
  | cons q rest ih =>
    intro a s
    simp only [searchMultipleGo, search]
    rw [accumulateHits_spec, ih]
    simp only [List.map_cons, List.flatten_cons, dedupByKey_append,
      seenAfter_append, List.append_assoc]

/-- **C5.**  With deduplication enabled and every per-variant search
succeeding (backend `f`), `search_multiple` returns exactly the
first-occurrence-by-content deduplication of the concatenated per-variant
hits, sorted by descending score (first conjunct).  Hence: every returned hit
is the FIRST hit seen with its content across the variants, in variant order
— later duplicates are dropped even if their score differs (second
conjunct); the result has at most one entry per distinct content string
(third conjunct); and it is sorted by descending score (fourth conjunct). -/
theorem searchMultiple_dedup_fuses_and_sorts
    (f : String → Nat → List RetrievedDocument) (queries : List String)
    (topK : Option Nat) :
    searchMultiple (some (fun q k => Except.ok (f q k))) queries topK true
      = Except.ok (List.insertionSort scoreGe
          (dedupByKey RetrievedDocument.content []
            ((queries.map (fun q => f q (topK.getD topKResults))).flatten))) ∧
    (∀ d ∈ List.insertionSort scoreGe
        (dedupByKey RetrievedDocument.content []
          ((queries.map (fun q => f q (topK.getD topKResults))).flatten)),
      ((queries.map (fun q => f q (topK.getD topKResults))).flatten).find?
        (fun y => y.content == d.content) = some d) ∧
    ((List.insertionSort scoreGe
        (dedupByKey RetrievedDocument.content []
          ((queries.map (fun q => f q (topK.getD topKResults))).flatten))).map
        RetrievedDocument.content).Nodup ∧
    List.Sorted scoreGe (List.insertionSort scoreGe
      (dedupByKey RetrievedDocument.content []
        ((queries.map (fun q => f q (topK.getD topKResults))).flatten))) := by
  refine ⟨?_, ?_, ?_, ?_⟩
  · unfold searchMultiple
    rw [searchMultipleGo_total f topK queries [] []]
    simp
  · intro d hd
    have hmem : d ∈ dedupByKey RetrievedDocument.content []
        ((queries.map (fun q => f q (topK.getD topKResults))).flatten) :=
      (List.perm_insertionSort scoreGe _).mem_iff.mp hd
    exact dedupByKey_find RetrievedDocument.content [] _ d hmem
  · have hp := (List.perm_insertionSort scoreGe
      (dedupByKey RetrievedDocument.content []
        ((queries.map (fun q => f q (topK.getD topKResults))).flatten))).map
      RetrievedDocument.content
    exact hp.nodup_iff.mpr (dedupByKey_keys_nodup RetrievedDocument.content [] _)
  · exact List.sorted_insertionSort scoreGe _

/-! ## Claim C8: the semantic deduplication pass -/

theorem getD_mem_of_lt (l : List String) (j : Nat) (h : j < l.length) :
    l.getD j "" ∈ l := by
  simp only [List.getD_eq_getElem?_getD, List.getElem?_eq_getElem h, Option.getD_some]
  exact List.getElem_mem h

theorem dedupExact_of_short (queries : List String) (h : queries.length ≤ 1) :
    dedupExact queries = queries := by
  match queries with
  | [] => rfl
  | [q] => simp [dedupExact, dedupByKey]
  | q1 :: q2 :: rest => simp at h

theorem not_mem_removeIdx (tr : List Nat) :
    ∀ (l : List String) (k j : Nat), l.Nodup → j < l.length →
      tr.contains (k + j) = true → l.getD j "" ∉ removeIdx tr k l := by
  intro l
  induction l with
  | nil => intro k j _ hj; simp at hj
  | cons q rest ih =>
    intro k j hnd hj hc
    have hq : q ∉ rest := (List.nodup_cons.mp hnd).1
    have hndr : rest.Nodup := (List.nodup_cons.mp hnd).2
    cases j with
    | zero =>
      rw [Nat.add_zero] at hc
      rw [show removeIdx tr k (q :: rest) = removeIdx tr (k + 1) rest from by
        conv_lhs => unfold removeIdx
        rw [if_pos hc]]
      intro hmem
      simp only [List.getD_cons_zero] at hmem
      exact hq ((removeIdx_sublist tr (k + 1) rest).subset hmem)
    | succ m =>
      have hml : m < rest.length := by simpa using hj
      have heq : k + 1 + m = k + (m + 1) := by omega
      by_cases hck : tr.contains k = true
      · rw [show removeIdx tr k (q :: rest) = removeIdx tr (k + 1) rest from by
          conv_lhs => unfold removeIdx
          rw [if_pos hck]]
        simp only [List.getD_cons_succ]
        exact ih (k + 1) m hndr hml (by rw [heq]; exact hc)
      · rw [show removeIdx tr k (q :: rest) = q :: removeIdx tr (k + 1) rest from by
          conv_lhs => unfold removeIdx
          rw [if_neg hck]]
        simp only [List.getD_cons_succ, List.mem_cons]
        rintro (he | hmem)
        · exact hq (he ▸ getD_mem_of_lt rest m hml)
        · exact ih (k + 1) m hndr hml (by rw [heq]; exact hc) hmem

theorem getD_mem_removeIdx (tr : List Nat) :
    ∀ (l : List String) (k j : Nat), j < l.length →
      tr.contains (k + j) = false → l.getD j "" ∈ removeIdx tr k l := by
  intro l
  induction l with
  | nil => intro k j hj; simp at hj
  | cons q rest ih =>
    intro k j hj hc
    cases j with
    | zero =>
      rw [Nat.add_zero] at hc
      rw [show removeIdx tr k (q :: rest) = q :: removeIdx tr (k + 1) rest from by
        conv_lhs => unfold removeIdx
        rw [if_neg (by rw [hc]; exact Bool.false_ne_true)]]
      simp [List.getD_cons_zero]
    | succ m =>
      have hml : m < rest.length := by simpa using hj
      have hcc : tr.contains (k + 1 + m) = false := by
        rw [show k + 1 + m = k + (m + 1) from by omega]
        exact hc
      by_cases hck : tr.contains k = true
      · rw [show removeIdx tr k (q :: rest) = removeIdx tr (k + 1) rest from by
          conv_lhs => unfold removeIdx
          rw [if_pos hck]]
        simp only [List.getD_cons_succ]
        exact ih (k + 1) m hml hcc
      · rw [show removeIdx tr k (q :: rest) = q :: removeIdx tr (k + 1) rest from by
          conv_lhs => unfold removeIdx
          rw [if_neg hck]]
        simp only [List.getD_cons_succ, List.mem_cons]
        exact Or.inr (ih (k + 1) m hml hcc)

theorem mem_calculateSemanticSimilarity (sim : Nat → Nat → Rat)
    (queries : List String) (i j : Nat) (hij : i < j) (hj : j < queries.length)
    (hsim : sim i j > simThreshold) :
    (i, j, sim i j) ∈ calculateSemanticSimilarity (some sim) queries := by
  unfold calculateSemanticSimilarity
  rw [if_neg (by omega)]
  simp only [List.mem_flatten, List.mem_map]
  refine ⟨(((List.range queries.length).filter (fun j2 => decide (i < j2))).filterMap
      (fun j2 => if sim i j2 > simThreshold then some (i, j2, sim i j2) else none)),
    ⟨i, List.mem_range.mpr (by omega), rfl⟩, ?_⟩
  simp only [List.mem_filterMap, List.mem_filter, List.mem_range, decide_eq_true_eq]
  exact ⟨j, ⟨hj, hij⟩, by rw [if_pos hsim]⟩

theorem of_mem_calculateSemanticSimilarity (sim : Nat → Nat → Rat)
    (queries : List String) (p : Nat × Nat × Rat)
    (h : p ∈ calculateSemanticSimilarity (some sim) queries) :
    p.1 < p.2.1 ∧ p.2.1 < queries.length ∧ sim p.1 p.2.1 > simThreshold ∧
      p = (p.1, p.2.1, sim p.1 p.2.1) := by
  unfold calculateSemanticSimilarity at h
  split at h
  · simp at h
  · dsimp only at h
    simp only [List.mem_flatten, List.mem_map] at h
    obtain ⟨L, ⟨i0, hi0, rfl⟩, hL⟩ := h
    simp only [List.mem_filterMap, List.mem_filter, List.mem_range,
      decide_eq_true_eq] at hL
    obtain ⟨j0, ⟨hj0, hij0⟩, hf⟩ := hL
    split at hf
    · rename_i hgt
      simp only [Option.some.injEq] at hf
      obtain rfl : p = (i0, j0, sim i0 j0) := hf.symm
      exact ⟨hij0, hj0, hgt, rfl⟩
    · simp at hf

theorem deduplicateQueries_eq_removeIdx (sim : Nat → Nat → Rat)
    (queries : List String) (hn : (dedupExact queries).length > 1)
    (hp : calculateSemanticSimilarity (some sim) (dedupExact queries) ≠ []) :
    deduplicateQueries (some sim) queries
      = removeIdx ((calculateSemanticSimilarity (some sim) (dedupExact queries)).map
          (pairLoser (dedupExact queries))) 0 (dedupExact queries) := by
  have hle : (dedupExact queries).length ≤ queries.length :=
    (dedupByKey_sublist exactKey [] queries).length_le
  unfold deduplicateQueries
  rw [if_neg (by omega)]
  dsimp only
  rw [if_neg (by omega), if_neg hp]

theorem deduplicateQueries_sublist_dedupExact (sim : Nat → Nat → Rat)
    (queries : List String) :
    List.Sublist (deduplicateQueries (some sim) queries) (dedupExact queries) := by
  by_cases h1 : queries.length ≤ 1
  · unfold deduplicateQueries
    rw [if_pos h1, dedupExact_of_short queries h1]
  · unfold deduplicateQueries
    rw [if_neg h1]
    dsimp only
    split
    · exact List.Sublist.refl _
    · split
      · exact List.Sublist.refl _
      · exact removeIdx_sublist _ 0 _

/-- **C8.**  The full behaviour of `_deduplicate_queries` when the embedding
service answers (similarities `sim`).  Writing `u` for the result of the
exact pass (`dedupExact queries`):
1. the exact pass keeps a subsequence of the input,
2. with pairwise-distinct case-insensitive keys (`lower().strip()`),
3. covering every input query's key,
4. and each survivor is the FIRST input occurrence of its key;
5. the semantic pass returns a subsequence of `u` (original relative order);
6. for every pair `i < j` of `u`-indices with `sim i j > 0.95`, the marked
   member — the longer string by character count, the second-indexed member
   on a length tie (`pairLoser`) — is removed;
7. an index that is no similar pair's marked member survives — in
   particular, pairs with similarity `≤ 0.95` cause no removal. -/
theorem deduplicateQueries_spec (sim : Nat → Nat → Rat) (queries : List String) :
    List.Sublist (dedupExact queries) queries ∧
    ((dedupExact queries).map exactKey).Nodup ∧
    (∀ q ∈ queries, exactKey q ∈ (dedupExact queries).map exactKey) ∧
    (∀ q ∈ dedupExact queries,
      queries.find? (fun x => exactKey x == exactKey q) = some q) ∧
    List.Sublist (deduplicateQueries (some sim) queries) (dedupExact queries) ∧
    (∀ i j, i < j → j < (dedupExact queries).length → sim i j > simThreshold →
      (dedupExact queries).getD (pairLoser (dedupExact queries) (i, j, sim i j)) ""
        ∉ deduplicateQueries (some sim) queries) ∧
    (∀ k, k < (dedupExact queries).length →
      (∀ i j, i < j → j < (dedupExact queries).length → sim i j > simThreshold →
        pairLoser (dedupExact queries) (i, j, sim i j) ≠ k) →
      (dedupExact queries).getD k "" ∈ deduplicateQueries (some sim) queries) := by
  refine ⟨dedupByKey_sublist exactKey [] queries,
    dedupByKey_keys_nodup exactKey [] queries, ?_, ?_, ?_, ?_, ?_⟩
  · intro q hq
    rcases dedupByKey_key_covers exactKey [] queries q hq with h | h
    · simp at h
    · exact h
  · intro q hq
    exact dedupByKey_find exactKey [] queries q hq
  · exact deduplicateQueries_sublist_dedupExact sim queries
  · intro i j hij hj hgt
    have hmem := mem_calculateSemanticSimilarity sim (dedupExact queries) i j hij hj hgt
    rw [deduplicateQueries_eq_removeIdx sim queries (by omega)
      (List.ne_nil_of_mem hmem)]
    apply not_mem_removeIdx
    · exact List.Nodup.of_map exactKey (dedupByKey_keys_nodup exactKey [] queries)
    · unfold pairLoser
      dsimp only
      split <;> omega
    · rw [Nat.zero_add]
      exact (listContains_iff _ _).mpr
        (List.mem_map.mpr ⟨(i, j, sim i j), hmem, rfl⟩)
  · intro k hk hnl
    by_cases h1 : queries.length ≤ 1
    · have he : dedupExact queries = queries := dedupExact_of_short queries h1
      unfold deduplicateQueries
      rw [if_pos h1, he]
      rw [he] at hk
      exact getD_mem_of_lt queries k hk
    · by_cases h2 : (dedupExact queries).length ≤ 1
      · unfold deduplicateQueries
        rw [if_neg h1]
        dsimp only
        rw [if_pos h2]
        exact getD_mem_of_lt _ k hk
      · by_cases h3 : calculateSemanticSimilarity (some sim) (dedupExact queries) = []
        · unfold deduplicateQueries
          rw [if_neg h1]
          dsimp only
          rw [if_neg h2, if_pos h3]
          exact getD_mem_of_lt _ k hk
        · rw [deduplicateQueries_eq_removeIdx sim queries (by omega) h3]
          apply getD_mem_removeIdx _ _ _ _ hk
          rw [Nat.zero_add]
          by_contra hcc
          simp only [Bool.not_eq_false] at hcc
          obtain ⟨p, hp, hlp⟩ := List.mem_map.mp ((listContains_iff _ _).mp hcc)
          obtain ⟨hij, hjn, hgt, hpe⟩ :=
            of_mem_calculateSemanticSimilarity sim _ p hp
          exact hnl p.1 p.2.1 hij hjn hgt (hpe ▸ hlp)

end RagPoc
